import Mathlib

/-
Verification of the equipment-integration and local-model layer of the
`clean-architecture-api` point-of-sale client (directory `app-client-python`).

The Python sources are shallowly embedded:
* strings are `List Char` (ASCII range; serial responses are decoded bytes),
* `decimal.Decimal` values are `ℚ`,
* the mutable driver object (`src/equipment/base.py`, `src/equipment/scales/*.py`)
  becomes a `ScaleState` record passed explicitly,
* the serial transport (`pyserial`) is an explicit `TransportOutcome` input:
  the driver either receives a line, a `SerialTimeoutException`, or another
  exception, exactly the three cases distinguished by the `try/except` blocks,
* raising an exception is modelled by returning the error message next to the
  unchanged (or partially updated) state.

Python's `str.isprintable`, `str.isdigit`, `str.strip`, `str.lower` are
modelled on the ASCII range, which is the range serial scale protocols and
the configuration values in this repository use.
-/

namespace PDV

/-! ### Python-style character classes and string helpers (`List Char`) -/

/-- ASCII model of Python `str.isprintable` for one character:
codes 32–126 are printable, control characters are not. -/
def isPrintableA (c : Char) : Bool := 32 ≤ c.toNat && c.toNat ≤ 126

/-- ASCII model of Python `str.isdigit` for one character. -/
def isDigitA (c : Char) : Bool := 48 ≤ c.toNat && c.toNat ≤ 57

/-- ASCII model of the whitespace stripped by Python `str.strip()`. -/
def isSpaceA (c : Char) : Bool :=
  c.toNat = 32 || c.toNat = 9 || c.toNat = 10 || c.toNat = 13 || c.toNat = 11 || c.toNat = 12

/-- `''.join(c for c in s if c.isprintable())`. -/
def printFilter (s : List Char) : List Char := s.filter isPrintableA

/-- Python `str.strip()` (no argument): drop whitespace from both ends. -/
def stripC (s : List Char) : List Char :=
  ((s.dropWhile isSpaceA).reverse.dropWhile isSpaceA).reverse

/-- ASCII model of Python `str.lower` for one character. -/
def toLowerA (c : Char) : Char :=
  if 65 ≤ c.toNat ∧ c.toNat ≤ 90 then Char.ofNat (c.toNat + 32) else c

/-- Python `str.lower()`. -/
def lowerC (s : List Char) : List Char := s.map toLowerA

/-- Does `s` start with `pat`?  (Python `str.startswith` on list form.) -/
def startsWithC : List Char → List Char → Bool
  | [], _ => true
  | _ :: _, [] => false
  | p :: ps, c :: cs => p = c && startsWithC ps cs

/-- Python substring containment `pat in s`. -/
def containsSub (pat : List Char) : List Char → Bool
  | [] => startsWithC pat []
  | c :: cs => startsWithC pat (c :: cs) || containsSub pat cs

/-- Python `str.split(sep)` for a one-character separator. -/
def splitOnC (sep : Char) : List Char → List (List Char)
  | [] => [[]]
  | c :: cs =>
    match splitOnC sep cs with
    | [] => [[]]
    | h :: t => if c = sep then [] :: h :: t else (c :: h) :: t

/-- Last element of a split (Python `split(...)[-1]`); a split is never empty. -/
def lastD (l : List (List Char)) : List Char := l.getLastD []

/-- Python `s.replace('kg', '')`: remove every (non-overlapping, left-to-right)
occurrence of the two-character pattern `kg`. -/
def removeKg : List Char → List Char
  | [] => []
  | [c] => [c]
  | c1 :: c2 :: rest =>
    if c1 = 'k' ∧ c2 = 'g' then removeKg rest else c1 :: removeKg (c2 :: rest)

/-- Python `str.lstrip(chars)` for a given character set. -/
def lstripSet (keep : Char → Bool) (s : List Char) : List Char := s.dropWhile keep

/-- Numeric value of a list of ASCII digit characters, most significant first
(the usual positional reading; `fromDigitsC ['0','1','2'] = 12`). -/
def fromDigitsC (ds : List Char) : ℕ :=
  ds.foldl (fun a c => 10 * a + (c.toNat - 48)) 0

/-! ### Model of `decimal.Decimal(str)` on sign/digits/dot strings

`Decimal(s)` accepts an optional sign followed by digits with at most one
decimal point (at least one digit overall) and raises `InvalidOperation`
otherwise.  The strings this repository feeds it are pre-filtered to
digits and `.`, `-`, `+`, so the exponent and NaN forms cannot occur. -/

/-- Is `body` (the part after an optional sign) a valid plain decimal literal? -/
def decValid (body : List Char) : Bool :=
  body.all (fun c => isDigitA c || c = '.') && body.count '.' ≤ 1 && body.any isDigitA

/-- Rational value of a valid unsigned decimal literal. -/
def decBody (body : List Char) : ℚ :=
  let ip := body.takeWhile (fun c => c ≠ '.')
  let fp := (body.dropWhile (fun c => c ≠ '.')).drop 1
  (fromDigitsC ip : ℚ) + (fromDigitsC fp : ℚ) / (10 : ℚ) ^ fp.length

/-- `decimal.Decimal(s)`, `none` when the constructor raises `InvalidOperation`. -/
def decimalOfChars (s : List Char) : Option ℚ :=
  if s.head? = some '+' then
    if decValid s.tail then some (decBody s.tail) else none
  else if s.head? = some '-' then
    if decValid s.tail then some (-decBody s.tail) else none
  else
    if decValid s then some (decBody s) else none

/-! ### Equipment base class (`src/equipment/base.py`) -/

/-- `EquipmentStatus` enum (`src/equipment/base.py`, lines 13–19). -/
inductive EquipmentStatus where
  | disconnected
  | connecting
  | connected
  | error
  | busy
deriving DecidableEq, Repr

/-- The mutable state of one scale driver instance: the fields of
`BaseEquipment.__init__` (`status`, `last_error`) and `BaseScale.__init__`
(`_last_weight`, `_is_stable`), plus `serial_open`, which stands for
`self.serial_connection is not None and self.serial_connection.is_open`. -/
structure ScaleState where
  status : EquipmentStatus
  last_error : Option String
  serial_open : Bool
  last_weight : Option ℚ
  is_stable : Bool
deriving DecidableEq, Repr

/-- `BaseEquipment.set_error` (`src/equipment/base.py`, lines 112–121):
records the message and sets `status = ERROR`. -/
def set_error (s : ScaleState) (msg : String) : ScaleState :=
  { s with last_error := some msg, status := .error }

/-- `BaseEquipment.clear_error` (`src/equipment/base.py`, lines 123–127). -/
def clear_error (s : ScaleState) : ScaleState :=
  let s1 : ScaleState := { s with last_error := none }
  if s1.status = .error then { s1 with status := .disconnected } else s1

/-- `ToledoScale.is_connected` / `FilizolaScale.is_connected`: the serial
handle exists and is open, and the status is `CONNECTED`. -/
def is_connected (s : ScaleState) : Bool :=
  s.serial_open && decide (s.status = .connected)

/-- One serial read interaction (`reset_input_buffer`; `write`; `readline`)
as the driver observes it: a decoded line (possibly empty), a
`serial.SerialTimeoutException`, or another exception with its message. -/
inductive TransportOutcome where
  | line (raw : List Char)
  | timeoutExc
  | exc (msg : String)

/-- The `finally` block of `read_weight`: if the status is still `BUSY`,
set it back to `CONNECTED`. -/
def finallyBusy (s : ScaleState) : ScaleState :=
  if s.status = .busy then { s with status := .connected } else s

/-! ### Toledo driver (`src/equipment/scales/toledo.py`) -/

/-- Characters kept by `_parse_toledo_response`:
`c.isdigit() or c in '.-+'`. -/
def toledoKeep (c : Char) : Bool := isDigitA c || c = '.' || c = '-' || c = '+'

/-- `clean_response` of `_parse_toledo_response` (line 176). -/
def toledo_clean (response : List Char) : List Char := printFilter response

/-- `weight_str` of `_parse_toledo_response` (lines 181–182):
last comma-separated field, with every `kg` removed, filtered to
digits and `.`, `-`, `+`. -/
def toledo_weight_str (response : List Char) : List Char :=
  (removeKg (lastD (splitOnC ',' (toledo_clean response)))).filter toledoKeep

/-- The stability test of `_parse_toledo_response` (line 188):
`'ST' in clean_response or 'stable' in clean_response.lower()`. -/
def toledo_stable (clean : List Char) : Bool :=
  containsSub ['S', 'T'] clean || containsSub ['s', 't', 'a', 'b', 'l', 'e'] (lowerC clean)

/-- The value extracted by `_parse_toledo_response` (lines 174–196),
independent of driver state: requires `'kg' in clean_response`, a nonempty
`weight_str`, and a `Decimal`-parsable `weight_str`; otherwise the method
returns `None` (the `except` clause also yields `None`). -/
def toledo_extract (response : List Char) : Option ℚ :=
  let clean := toledo_clean response
  if containsSub ['k', 'g'] clean then
    if toledo_weight_str response ≠ [] then decimalOfChars (toledo_weight_str response)
    else none
  else none

/-- `ToledoScale._parse_toledo_response` (lines 164–196) as a state
transformer: `self._is_stable` is assigned only on the success path
(the assignment on line 188 happens after `Decimal(weight_str)` succeeded). -/
def parse_toledo_response (s : ScaleState) (response : List Char) : ScaleState × Option ℚ :=
  match toledo_extract response with
  | some w => ({ s with is_stable := toledo_stable (toledo_clean response) }, some w)
  | none => (s, none)

/-- `ToledoScale.read_weight` (lines 116–162).  The body of
`FilizolaScale.read_weight` (filizola.py, lines 112–157) is line-for-line
identical except for the parse routine, so both instantiate this function.
Translation notes: after `set_error` the status is `ERROR`, so the
`finally` block (`finallyBusy`) only restores `CONNECTED` on paths that
did not call `set_error`. -/
def read_weight_with (parse : ScaleState → List Char → ScaleState × Option ℚ)
    (s : ScaleState) (t : TransportOutcome) : ScaleState × Option ℚ :=
  if ¬ is_connected s then (set_error s "Balança não conectada", none)
  else
    let s1 : ScaleState := { s with status := .busy }
    match t with
    | .line raw =>
      let response := stripC raw
      if response ≠ [] then
        match parse s1 response with
        | (s2, some w) =>
          (finallyBusy { s2 with last_weight := some w, status := .connected }, some w)
        | (s2, none) =>
          (finallyBusy (set_error s2 "Resposta inválida da balança"), none)
      else (finallyBusy (set_error s1 "Resposta inválida da balança"), none)
    | .timeoutExc => (finallyBusy (set_error s1 "Timeout na comunicação"), none)
    | .exc m => (finallyBusy (set_error s1 ("Erro na leitura: " ++ m)), none)

/-- `ToledoScale.read_weight` (`src/equipment/scales/toledo.py`, lines 116–162). -/
def toledo_read_weight : ScaleState → TransportOutcome → ScaleState × Option ℚ :=
  read_weight_with parse_toledo_response

/-! ### Filizola driver (`src/equipment/scales/filizola.py`) -/

/-- The character set stripped from the front by
`clean_response.lstrip('SW+-')` (line 177). -/
def filizolaLstripSet (c : Char) : Bool := c = 'S' || c = 'W' || c = '+' || c = '-'

/-- Characters kept when extracting `numbers` (line 180):
`c.isdigit() or c == '.'`. -/
def filizolaKeep (c : Char) : Bool := isDigitA c || c = '.'

/-- `clean_response` of `_parse_filizola_response` (line 171). -/
def filizola_clean (response : List Char) : List Char := printFilter response

/-- `numbers` of `_parse_filizola_response` (lines 177–180). -/
def filizola_numbers (response : List Char) : List Char :=
  (lstripSet filizolaLstripSet (filizola_clean response)).filter filizolaKeep

/-- The stability test of `_parse_filizola_response` (line 187):
`clean_response.startswith('S') or 'stable' in clean_response.lower()`. -/
def filizola_stable (clean : List Char) : Bool :=
  startsWithC ['S'] clean || containsSub ['s', 't', 'a', 'b', 'l', 'e'] (lowerC clean)

/-- The value extracted by `_parse_filizola_response` (lines 159–195).
Note the leading sign is stripped by `lstrip('SW+-')`, so the parsed value
carries no sign. -/
def filizola_extract (response : List Char) : Option ℚ :=
  if filizola_numbers response ≠ [] then decimalOfChars (filizola_numbers response)
  else none

/-- `FilizolaScale._parse_filizola_response` (lines 159–195) as a state
transformer; `self._is_stable` is assigned only on the success path. -/
def parse_filizola_response (s : ScaleState) (response : List Char) : ScaleState × Option ℚ :=
  match filizola_extract response with
  | some w => ({ s with is_stable := filizola_stable (filizola_clean response) }, some w)
  | none => (s, none)

/-- `FilizolaScale.read_weight` (`src/equipment/scales/filizola.py`, lines 112–157). -/
def filizola_read_weight : ScaleState → TransportOutcome → ScaleState × Option ℚ :=
  read_weight_with parse_filizola_response

/-! ### `tare` and `zero` (toledo.py lines 198–253, filizola.py lines 197–250)

Both vendors' `tare`/`zero` bodies are line-for-line identical (only the
logged vendor name differs).  The serial `write` of the command either
succeeds (`writeExc = none`) or raises with a message; `time.sleep` has no
observable effect on driver state.  `tare` then verifies by calling
`read_weight`, whose serial interaction is the `TransportOutcome` input. -/

/-- `tare`: returns `True` iff the post-command verification read returns a
weight with `abs(current_weight) < Decimal('0.010')`. -/
def tare_with (readW : ScaleState → TransportOutcome → ScaleState × Option ℚ)
    (s : ScaleState) (writeExc : Option String) (t : TransportOutcome) : ScaleState × Bool :=
  if ¬ is_connected s then (s, false)
  else
    match writeExc with
    | some m => (set_error s ("Erro na tara: " ++ m), false)
    | none =>
      match readW s t with
      | (s2, some w) =>
        if |w| < (0.010 : ℚ) then (s2, true)
        else (set_error s2 "Falha na execução da tara", false)
      | (s2, none) => (set_error s2 "Falha na execução da tara", false)

/-- `ToledoScale.tare` (toledo.py, lines 198–228). -/
def toledo_tare : ScaleState → Option String → TransportOutcome → ScaleState × Bool :=
  tare_with toledo_read_weight

/-- `FilizolaScale.tare` (filizola.py, lines 197–226). -/
def filizola_tare : ScaleState → Option String → TransportOutcome → ScaleState × Bool :=
  tare_with filizola_read_weight

/-- `zero` (toledo.py lines 230–253, filizola.py lines 228–250): sends the
command and waits; there is no verification read — the device ack is
trusted, and the result is `True` whenever the write did not raise. -/
def zero_with (s : ScaleState) (writeExc : Option String) : ScaleState × Bool :=
  if ¬ is_connected s then (s, false)
  else
    match writeExc with
    | some m => (set_error s ("Erro ao zerar: " ++ m), false)
    | none => (s, true)

/-! ### `BaseScale.wait_for_stable_weight` (`src/equipment/scales/base.py`, lines 71–93)

`read_weight` is abstract on `BaseScale`, so the polling loop is embedded
against an oracle `reads : ℕ → Option ℚ × Bool` giving, for poll number
`i`, the value returned by `self.read_weight()` and the value of
`self.is_weight_stable()` right after it.  The loop body ends with
`time.sleep(0.1)`; counting each iteration as one 100 ms interval, the
`while time.time() - start_time < timeout` guard admits exactly the
iterations whose start time `i / 10` seconds satisfies `i / 10 < timeout`,
i.e. `10 * timeout` polls for an integer `timeout` in seconds. -/

/-- Number of loop iterations for a given `timeout` (seconds). -/
def wait_poll_count (timeout : ℕ) : ℕ := 10 * timeout

/-- The polling loop of `wait_for_stable_weight`: `fuel` remaining polls,
`i` the index of the next poll. -/
def wait_loop (reads : ℕ → Option ℚ × Bool) : ℕ → ℕ → Option ℚ
  | 0, _ => none
  | fuel + 1, i =>
    match reads i with
    | (some w, true) => some w
    | _ => wait_loop reads fuel (i + 1)

/-- `BaseScale.wait_for_stable_weight(timeout)`. -/
def wait_for_stable_weight (reads : ℕ → Option ℚ × Bool) (timeout : ℕ) : Option ℚ :=
  wait_loop reads (wait_poll_count timeout) 0

/-- Does one poll result report a usable stable reading
(`weight is not None and self.is_weight_stable()`)? -/
def stableHit (p : Option ℚ × Bool) : Bool := p.1.isSome && p.2

/-! ### `ScaleManager._initialize_scale` (`src/equipment/scales/manager.py`, lines 30–44) -/

/-- The two keys of `ScaleManager.SUPPORTED_BRANDS` (lines 20–23). -/
inductive ScaleBrand where
  | toledo
  | filizola
deriving DecidableEq, Repr

/-- Python `str.lower()` on `String`. -/
def pyLowerStr (s : String) : String := String.mk (lowerC s.data)

/-- The part of the manager configuration `_initialize_scale` reads:
`enabled` is the truthiness of `config.get('enabled', False)`, and
`default_brand` is `config.get('default_brand')` (`none` when the key is
missing, in which case the source falls back to `'toledo'`). -/
structure ScaleManagerConfig where
  enabled : Bool
  default_brand : Option String
deriving DecidableEq, Repr

/-- `ScaleManager._initialize_scale`: when equipment is disabled it returns
immediately (leaving `self.scale = None`); otherwise it lowercases the
brand, raises `EquipmentError` for a brand outside `SUPPORTED_BRANDS`, and
constructs the matching driver class.  `.error` is the raised exception
message, `.ok none` means construction finished with no driver. -/
def initScale (cfg : ScaleManagerConfig) : Except String (Option ScaleBrand) :=
  if ¬ cfg.enabled then .ok none
  else
    let brand := pyLowerStr (cfg.default_brand.getD "toledo")
    if brand = "toledo" then .ok (some .toledo)
    else if brand = "filizola" then .ok (some .filizola)
    else .error ("Marca de balança não suportada: " ++ brand)

/-! ### `ConfigManager._deep_merge` (`src/core/config.py`, lines 85–97)

Configuration domains are JSON objects; `PyVal` is the JSON-like value
type, with objects as insertion-ordered association lists (Python dicts).
`base[key] = value` keeps the position of an existing key and appends a
new one, exactly as Python dicts do. -/

inductive PyVal where
  | dict : List (String × PyVal) → PyVal
  | str : String → PyVal
  | num : ℚ → PyVal
  | boolean : Bool → PyVal
  | pynone : PyVal
deriving Repr

/-- `base[key]` lookup (first — and in a dict only — binding wins). -/
def lookupVal : List (String × PyVal) → String → Option PyVal
  | [], _ => none
  | (k, v) :: rest, key => if k = key then some v else lookupVal rest key

/-- `base[key] = v`: replace in place, or append a fresh key. -/
def setKey : List (String × PyVal) → String → PyVal → List (String × PyVal)
  | [], key, v => [(key, v)]
  | (k, w) :: rest, key, v =>
    if k = key then (k, v) :: rest else (k, w) :: setKey rest key v

/-- `isinstance(v, dict)`. -/
def isDict : PyVal → Bool
  | .dict _ => true
  | _ => false

/-- The entries of a dict value (`[]` on non-dicts; only used under `isDict`). -/
def asDict : PyVal → List (String × PyVal)
  | .dict es => es
  | _ => []

theorem sizeOf_asDict {v : PyVal} (h : isDict v = true) : sizeOf (asDict v) < sizeOf v := by
  cases v <;> simp [isDict, asDict] at h ⊢ <;> omega

/-- The guard of `_deep_merge`:
`key in base and isinstance(base[key], dict) and isinstance(value, dict)`. -/
def bothDicts (bv : Option PyVal) (v : PyVal) : Bool :=
  match bv with
  | some b => isDict b && isDict v
  | none => false

/-- `ConfigManager._deep_merge(base, override)`: for each override item in
order, recurse when the key is present in `base` and both sides hold
dicts, otherwise overwrite (`base[key] = value`). -/
def deep_merge : List (String × PyVal) → List (String × PyVal) → List (String × PyVal)
  | base, [] => base
  | base, (key, v) :: rest =>
    let nextBase :=
      if h : bothDicts (lookupVal base key) v = true then
        setKey base key (.dict (deep_merge (asDict ((lookupVal base key).getD .pynone)) (asDict v)))
      else setKey base key v
    deep_merge nextBase rest
termination_by base ov => sizeOf ov
decreasing_by
  · have hv : isDict v = true := by
      unfold bothDicts at h
      cases hl : lookupVal base key <;> rw [hl] at h <;> simp_all
    have := sizeOf_asDict hv
    simp
    omega
  · simp

/-- Keys of an association list are pairwise distinct (always true of a
Python dict). -/
def nodup_keys : List (String × PyVal) → Bool
  | [] => true
  | (k, _) :: rest => rest.all (fun kv => kv.1 ≠ k) && nodup_keys rest

/-- `nodup_keys`, recursively through nested dict values. -/
def pyval_nodup : PyVal → Bool
  | .dict es => nodup_keys es && es.attach.all (fun kv => pyval_nodup kv.1.2)
  | _ => true
decreasing_by
  simp_wf
  obtain ⟨⟨k, v⟩, hm⟩ := kv
  have := List.sizeOf_lt_of_mem hm
  simp at this ⊢
  omega

/-! ### `CashierSession` (`src/models/cashier_session.py`)

The spec scopes out the pydantic field-constraint validation layer ("the
data model validation layer (field constraints), which the core consumes
as plain validated records"), so the model mutators below act on plain
records.  `datetime` timestamps are abstract naturals. -/

/-- `SessionStatus` enum (lines 13–17). -/
inductive SessionStatus where
  | Open
  | Closed
  | Suspended
deriving DecidableEq, Repr

/-- The fields of `CashierSession` the session-lifecycle and totals logic
touches (identification/sync metadata omitted). -/
structure CashierSession where
  opened_at : ℕ
  closed_at : Option ℕ
  opening_cash : ℚ
  total_sales : ℚ
  total_cash_sales : ℚ
  total_card_sales : ℚ
  total_pix_sales : ℚ
  total_other_sales : ℚ
  sales_count : ℤ
  cancelled_sales_count : ℤ
  closing_cash : Option ℚ
  expected_cash : Option ℚ
  cash_difference : Option ℚ
  status : SessionStatus
  closing_notes : Option String
deriving DecidableEq, Repr

/-- A freshly opened session: the constructor defaults of
`cashier_session.py` lines 37–64 (all totals and counters `0`, status
`OPEN`, closing fields unset). -/
def open_session (opened_at : ℕ) (opening_cash : ℚ) : CashierSession :=
  { opened_at := opened_at
    closed_at := none
    opening_cash := opening_cash
    total_sales := 0
    total_cash_sales := 0
    total_card_sales := 0
    total_pix_sales := 0
    total_other_sales := 0
    sales_count := 0
    cancelled_sales_count := 0
    closing_cash := none
    expected_cash := none
    cash_difference := none
    status := .Open
    closing_notes := none }

/-- `CashierSession.add_sale` (lines 106–125). -/
def add_sale (s : CashierSession) (amount : ℚ) (payment_method : String) : CashierSession :=
  let s1 : CashierSession :=
    { s with total_sales := s.total_sales + amount, sales_count := s.sales_count + 1 }
  let m := pyLowerStr payment_method
  if m = "cash" then { s1 with total_cash_sales := s1.total_cash_sales + amount }
  else if m = "credit_card" ∨ m = "debit_card" then
    { s1 with total_card_sales := s1.total_card_sales + amount }
  else if m = "pix" then { s1 with total_pix_sales := s1.total_pix_sales + amount }
  else { s1 with total_other_sales := s1.total_other_sales + amount }

/-- `CashierSession.cancel_sale` (lines 127–147). -/
def cancel_sale (s : CashierSession) (amount : ℚ) (payment_method : String) : CashierSession :=
  let s1 : CashierSession :=
    { s with total_sales := s.total_sales - amount
             sales_count := s.sales_count - 1
             cancelled_sales_count := s.cancelled_sales_count + 1 }
  let m := pyLowerStr payment_method
  if m = "cash" then { s1 with total_cash_sales := s1.total_cash_sales - amount }
  else if m = "credit_card" ∨ m = "debit_card" then
    { s1 with total_card_sales := s1.total_card_sales - amount }
  else if m = "pix" then { s1 with total_pix_sales := s1.total_pix_sales - amount }
  else { s1 with total_other_sales := s1.total_other_sales - amount }

/-- `CashierSession.calculate_expected_cash` (lines 85–92). -/
def calculate_expected_cash (s : CashierSession) : ℚ :=
  s.opening_cash + s.total_cash_sales

/-- `CashierSession.calculate_difference` (lines 94–104). -/
def calculate_difference (s : CashierSession) : Option ℚ :=
  match s.closing_cash with
  | some cc => some (cc - calculate_expected_cash s)
  | none => none

/-- `CashierSession.can_close` (lines 149–156). -/
def can_close (s : CashierSession) : Bool := decide (s.status = .Open)

/-- `CashierSession.close_session` (lines 158–174).  The pair's second
component carries the `ValueError` message when the method raises; the
raise happens before any field assignment, so the state is returned
untouched in that case.  On success the fields are assigned in source
order (`cash_difference` is computed after `closing_cash` was set). -/
def close_session (s : CashierSession) (now : ℕ) (closing_cash : ℚ)
    (notes : Option String) : CashierSession × Option String :=
  if ¬ can_close s then (s, some "Sessão não pode ser fechada no status atual")
  else
    let s1 : CashierSession := { s with closing_cash := some closing_cash }
    let s2 : CashierSession := { s1 with expected_cash := some (calculate_expected_cash s1) }
    let s3 : CashierSession := { s2 with cash_difference := calculate_difference s2 }
    ({ s3 with closed_at := some now, closing_notes := notes, status := .Closed }, none)

/-- One call in a sequence of `add_sale` / `cancel_sale` calls. -/
inductive SessionOp where
  | add (amount : ℚ) (payment_method : String)
  | cancel (amount : ℚ) (payment_method : String)

def apply_session_op (s : CashierSession) : SessionOp → CashierSession
  | .add amount pm => add_sale s amount pm
  | .cancel amount pm => cancel_sale s amount pm

def apply_session_ops (s : CashierSession) (ops : List SessionOp) : CashierSession :=
  ops.foldl apply_session_op s

/-- Number of `add_sale` calls in a sequence. -/
def countAdds : List SessionOp → ℤ
  | [] => 0
  | .add _ _ :: rest => countAdds rest + 1
  | .cancel _ _ :: rest => countAdds rest

/-- Number of `cancel_sale` calls in a sequence. -/
def countCancels : List SessionOp → ℤ
  | [] => 0
  | .add _ _ :: rest => countCancels rest
  | .cancel _ _ :: rest => countCancels rest + 1

/-- The §3 invariant: `total_sales` equals the sum of the four
payment-category totals. -/
def session_invariant (s : CashierSession) : Prop :=
  s.total_sales =
    s.total_cash_sales + s.total_card_sales + s.total_pix_sales + s.total_other_sales

/-! ### `Sale` / `SaleItem` (`src/models/sale.py`)

Only the fields `calculate_totals` and the item mutators read or write are
modelled; the pydantic validation layer is scoped out as above. -/

/-- The fields of `SaleItem` used by the sale totals (lines 31–79). -/
structure SaleItem where
  product_id : ℤ
  quantity : ℤ
  unit_price : ℚ
  total_price : ℚ
  discount_amount : ℚ
  tax_amount : Option ℚ
deriving DecidableEq, Repr

/-- The fields of `Sale` used by `calculate_totals` and the mutators. -/
structure Sale where
  items : List SaleItem
  subtotal : ℚ
  discount_amount : ℚ
  discount_percentage : Option ℚ
  tax_amount : ℚ
  total_amount : ℚ
  amount_paid : ℚ
  change_amount : ℚ
deriving DecidableEq, Repr

/-- `sum(item.total_price for item in self.items)` (line 152). -/
def sale_subtotal (items : List SaleItem) : ℚ :=
  (items.map SaleItem.total_price).sum

/-- `sum(item.discount_amount for item in self.items)` (line 153). -/
def sale_items_discount (items : List SaleItem) : ℚ :=
  (items.map SaleItem.discount_amount).sum

/-- `sum(item.tax_amount or 0 for item in self.items)` (line 154):
`None` and `Decimal(0)` both contribute `0`. -/
def sale_tax (items : List SaleItem) : ℚ :=
  (items.map fun i => i.tax_amount.getD 0).sum

/-- The general-discount term of lines 157–159: `if self.discount_percentage:`
is Python truthiness, so `None` and `Decimal(0)` add nothing. -/
def general_discount (subtotal : ℚ) : Option ℚ → ℚ
  | some p => if p ≠ 0 then subtotal * p / 100 else 0
  | none => 0

/-- `Sale.calculate_totals` (lines 148–167). -/
def calculate_totals (s : Sale) : Sale :=
  let subtotal := sale_subtotal s.items
  let disc := sale_items_discount s.items + general_discount subtotal s.discount_percentage
  let tax := sale_tax s.items
  let total := subtotal - disc + tax
  let change := if s.amount_paid > total then s.amount_paid - total else 0
  { s with subtotal := subtotal
           discount_amount := disc
           tax_amount := tax
           total_amount := total
           change_amount := change }

/-- `Sale.add_item` (lines 169–177). -/
def add_item (s : Sale) (item : SaleItem) : Sale :=
  calculate_totals { s with items := s.items ++ [item] }

/-- `Sale.remove_item` (lines 179–188): out-of-range indices are ignored. -/
def remove_item (s : Sale) (index : ℤ) : Sale :=
  if 0 ≤ index ∧ index < (s.items.length : ℤ) then
    calculate_totals { s with items := s.items.eraseIdx index.toNat }
  else s

/-- `Sale.clear_items` (lines 190–193). -/
def clear_items (s : Sale) : Sale :=
  calculate_totals { s with items := [] }

/-- `Sale.apply_discount` (lines 195–204): percentages outside `[0, 100]`
are ignored. -/
def apply_discount (s : Sale) (percentage : ℚ) : Sale :=
  if 0 ≤ percentage ∧ percentage ≤ 100 then
    calculate_totals { s with discount_percentage := some percentage }
  else s

/-- One mutation of a `Sale`. -/
inductive SaleOp where
  | add (item : SaleItem)
  | remove (index : ℤ)
  | clear
  | discount (percentage : ℚ)

def apply_sale_op (s : Sale) : SaleOp → Sale
  | .add item => add_item s item
  | .remove index => remove_item s index
  | .clear => clear_items s
  | .discount p => apply_discount s p

def apply_sale_ops (s : Sale) (ops : List SaleOp) : Sale :=
  ops.foldl apply_sale_op s

/-- The §3 invariant for `Sale`: the three component totals are the
deterministic recomputation from the current items (and the general
discount percentage), and `total_amount = subtotal − discount_amount +
tax_amount`. -/
def sale_consistent (s : Sale) : Prop :=
  s.subtotal = sale_subtotal s.items ∧
  s.discount_amount =
    sale_items_discount s.items + general_discount (sale_subtotal s.items) s.discount_percentage ∧
  s.tax_amount = sale_tax s.items ∧
  s.total_amount = s.subtotal - s.discount_amount + s.tax_amount

/-! ## Theorems -/

/-! ### C3: cashier-session totals invariant -/

theorem add_sale_spec (s : CashierSession) (a : ℚ) (pm : String) :
    (session_invariant s → session_invariant (add_sale s a pm)) ∧
    (add_sale s a pm).sales_count = s.sales_count + 1 := by
  unfold session_invariant add_sale
  dsimp only
  split_ifs <;> constructor <;> intros <;> simp_all <;> ring

theorem cancel_sale_spec (s : CashierSession) (a : ℚ) (pm : String) :
    (session_invariant s → session_invariant (cancel_sale s a pm)) ∧
    (cancel_sale s a pm).sales_count = s.sales_count - 1 := by
  unfold session_invariant cancel_sale
  dsimp only
  split_ifs <;> constructor <;> intros <;> simp_all <;> ring

theorem apply_session_ops_spec (ops : List SessionOp) :
    ∀ s : CashierSession, session_invariant s →
      session_invariant (apply_session_ops s ops) ∧
      (apply_session_ops s ops).sales_count = s.sales_count + countAdds ops - countCancels ops := by
  induction ops with
  | nil => intro s h; exact ⟨h, by simp [apply_session_ops, countAdds, countCancels]⟩
  | cons op rest ih =>
    intro s h
    have hstep : apply_session_ops s (op :: rest) = apply_session_ops (apply_session_op s op) rest := rfl
    cases op with
    | add a pm =>
      obtain ⟨h1, h2⟩ := ih (add_sale s a pm) ((add_sale_spec s a pm).1 h)
      refine ⟨by simpa [hstep, apply_session_op] using h1, ?_⟩
      rw [hstep]
      simp only [apply_session_op] at h2 ⊢
      rw [h2, (add_sale_spec s a pm).2]
      simp [countAdds, countCancels]
      ring
    | cancel a pm =>
      obtain ⟨h1, h2⟩ := ih (cancel_sale s a pm) ((cancel_sale_spec s a pm).1 h)
      refine ⟨by simpa [hstep, apply_session_op] using h1, ?_⟩
      rw [hstep]
      simp only [apply_session_op] at h2 ⊢
      rw [h2, (cancel_sale_spec s a pm).2]
      simp [countAdds, countCancels]
      ring

/-- C3: for every sequence of `add_sale`/`cancel_sale` calls on a freshly
opened `CashierSession`, `total_sales` equals the sum of the four
payment-category totals after every call, and `sales_count` equals the
number of adds minus the number of cancels.  (Quantifying over all
sequences covers every prefix, hence "after every call".) -/
theorem claim3_session_totals (opened_at : ℕ) (opening_cash : ℚ) (ops : List SessionOp) :
    session_invariant (apply_session_ops (open_session opened_at opening_cash) ops) ∧
    (apply_session_ops (open_session opened_at opening_cash) ops).sales_count =
      countAdds ops - countCancels ops := by
  have h0 : session_invariant (open_session opened_at opening_cash) := by
    simp [session_invariant, open_session]
  obtain ⟨h1, h2⟩ := apply_session_ops_spec ops (open_session opened_at opening_cash) h0
  exact ⟨h1, by simpa [open_session] using h2⟩

/-! ### C4: sale totals invariant -/

theorem calculate_totals_consistent (s : Sale) : sale_consistent (calculate_totals s) := by
  unfold sale_consistent calculate_totals
  refine ⟨rfl, rfl, rfl, rfl⟩

theorem apply_sale_op_consistent (s : Sale) (op : SaleOp) (h : sale_consistent s) :
    sale_consistent (apply_sale_op s op) := by
  cases op with
  | add item => exact calculate_totals_consistent _
  | remove index =>
    simp only [apply_sale_op, remove_item]
    split_ifs
    · exact calculate_totals_consistent _
    · exact h
  | clear => exact calculate_totals_consistent _
  | discount p =>
    simp only [apply_sale_op, apply_discount]
    split_ifs
    · exact calculate_totals_consistent _
    · exact h

theorem apply_sale_ops_consistent (ops : List SaleOp) :
    ∀ s : Sale, sale_consistent s → sale_consistent (apply_sale_ops s ops) := by
  induction ops with
  | nil => intro s h; exact h
  | cons op rest ih =>
    intro s h
    exact ih (apply_sale_op s op) (apply_sale_op_consistent s op h)

/-- C4: after every mutation of a `Sale` (`add_item`, `remove_item`,
`clear_items`, `apply_discount`) — starting from any sale whose totals
have been computed — `total_amount = subtotal − discount_amount +
tax_amount` holds, with `subtotal`, `discount_amount` and `tax_amount`
equal to the deterministic recomputation from the current items (plus the
general `discount_percentage` applied to the subtotal). -/
theorem claim4_sale_totals (s : Sale) (ops : List SaleOp) :
    sale_consistent (apply_sale_ops (calculate_totals s) ops) :=
  apply_sale_ops_consistent ops (calculate_totals s) (calculate_totals_consistent s)

/-! ### C10: closing a non-open session -/

/-- C10: `close_session` on a session whose status is not `OPEN`
(`SUSPENDED` or `CLOSED`) raises `ValueError` and leaves every field of
the session unchanged (the returned state is the input state itself; in
particular a suspended session cannot be closed without being resumed). -/
theorem claim10_close_session_guard (s : CashierSession) (now : ℕ) (closing_cash : ℚ)
    (notes : Option String) (h : s.status ≠ .Open) :
    close_session s now closing_cash notes =
      (s, some "Sessão não pode ser fechada no status atual") := by
  unfold close_session can_close
  simp [h]

theorem claim10_witness :
    ({ open_session 0 100 with status := .Suspended } : CashierSession).status ≠ .Open ∧
    close_session { open_session 0 100 with status := .Suspended } 5 50 none =
      ({ open_session 0 100 with status := .Suspended },
        some "Sessão não pode ser fechada no status atual") :=
  ⟨by decide, claim10_close_session_guard _ 5 50 none (by decide)⟩

/-! ### C9: `wait_for_stable_weight` termination and result -/

theorem wait_loop_of_no_hit (reads : ℕ → Option ℚ × Bool)
    (h : ∀ i, stableHit (reads i) = false) :
    ∀ fuel i, wait_loop reads fuel i = none := by
  intro fuel
  induction fuel with
  | zero => intro i; rfl
  | succ n ih =>
    intro i
    have hi := h i
    rw [wait_loop]
    cases hr : reads i with
    | mk o b =>
      rw [hr] at hi
      cases o with
      | none => simpa using ih (i + 1)
      | some w =>
        cases b with
        | false => simpa using ih (i + 1)
        | true => simp [stableHit] at hi

theorem wait_loop_first_hit (reads : ℕ → Option ℚ × Bool) :
    ∀ fuel i j w, i ≤ j → j < i + fuel → reads j = (some w, true) →
      (∀ l, i ≤ l → l < j → stableHit (reads l) = false) →
      wait_loop reads fuel i = some w := by
  intro fuel
  induction fuel with
  | zero => intro i j w h1 h2 _ _; omega
  | succ n ih =>
    intro i j w h1 h2 hj hbefore
    rw [wait_loop]
    rcases eq_or_lt_of_le h1 with heq | hlt
    · subst heq
      rw [hj]
    · have hi : stableHit (reads i) = false := hbefore i le_rfl hlt
      cases hr : reads i with
      | mk o b =>
        rw [hr] at hi
        cases o with
        | none =>
          simpa using ih (i + 1) j w hlt (by omega) hj (fun l hl1 hl2 => hbefore l (by omega) hl2)
        | some v =>
          cases b with
          | false =>
            simpa using ih (i + 1) j w hlt (by omega) hj (fun l hl1 hl2 => hbefore l (by omega) hl2)
          | true => simp [stableHit] at hi

/-- C9: against a driver whose `read_weight` never produces a stable
reading, `wait_for_stable_weight` terminates with `none` after exactly
`wait_poll_count timeout` polls — the blocked time, at one 100 ms sleep
per poll, is bounded by the timeout plus one poll interval (in
milliseconds) — and if some poll is the first to return a non-null weight
with the stability flag set, that weight is returned instead. -/
theorem claim9_wait_for_stable (reads : ℕ → Option ℚ × Bool) (timeout : ℕ) :
    ((∀ i, stableHit (reads i) = false) → wait_for_stable_weight reads timeout = none) ∧
    wait_poll_count timeout * 100 ≤ timeout * 1000 + 100 ∧
    (∀ j w, j < wait_poll_count timeout → reads j = (some w, true) →
      (∀ l, l < j → stableHit (reads l) = false) →
      wait_for_stable_weight reads timeout = some w) := by
  refine ⟨fun h => wait_loop_of_no_hit reads h _ 0, ?_, ?_⟩
  · unfold wait_poll_count
    omega
  · intro j w hj hr hbefore
    exact wait_loop_first_hit reads (wait_poll_count timeout) 0 j w (Nat.zero_le j)
      (by omega) hr (fun l _ hl2 => hbefore l hl2)

theorem claim9_witness :
    wait_for_stable_weight (fun i => if i = 3 then (some 7, true) else (some 1, false)) 1 = some 7 ∧
    wait_for_stable_weight (fun _ => (some 1, false)) 1 = none :=
  ⟨(claim9_wait_for_stable (fun i => if i = 3 then (some 7, true) else (some 1, false)) 1).2.2
      3 7 (by decide) (by decide) (by decide),
    (claim9_wait_for_stable (fun _ => (some 1, false)) 1).1
      (fun i => by simp [stableHit])⟩

/-! ### C7: unsupported scale vendor at construction -/

/-- C7 (amended): when equipment is enabled, a `default_brand` whose
lowercase form is outside `SUPPORTED_BRANDS` makes `ScaleManager`
construction raise `EquipmentError` (no silent fallback); when equipment
is disabled, `_initialize_scale` returns immediately with no driver and
no error regardless of the brand. -/
theorem claim7_unsupported_brand (cfg : ScaleManagerConfig) :
    (cfg.enabled = true →
      pyLowerStr (cfg.default_brand.getD "toledo") ≠ "toledo" →
      pyLowerStr (cfg.default_brand.getD "toledo") ≠ "filizola" →
      initScale cfg =
        .error ("Marca de balança não suportada: " ++ pyLowerStr (cfg.default_brand.getD "toledo"))) ∧
    (cfg.enabled = false → initScale cfg = .ok none) := by
  constructor
  · intro he h1 h2
    unfold initScale
    simp [he, h1, h2]
  · intro he
    unfold initScale
    simp [he]

theorem claim7_witness :
    initScale ⟨true, some "ACME"⟩ =
      .error ("Marca de balança não suportada: " ++ pyLowerStr ((some "ACME").getD "toledo")) :=
  (claim7_unsupported_brand ⟨true, some "ACME"⟩).1 rfl (by decide) (by decide)

/-- C7 counterexample to the claim as stated: the configuration
`{enabled: False, default_brand: "acme"}` names a vendor outside the
supported set, yet construction does not raise — `_initialize_scale`
returns before the brand check and leaves the manager in the disabled
state (`self.scale = None`). -/
theorem claim7_counterexample :
    pyLowerStr ((ScaleManagerConfig.mk false (some "acme")).default_brand.getD "toledo") ≠ "toledo" ∧
    pyLowerStr ((ScaleManagerConfig.mk false (some "acme")).default_brand.getD "toledo") ≠ "filizola" ∧
    initScale (ScaleManagerConfig.mk false (some "acme")) = .ok none :=
  ⟨by decide, by decide, rfl⟩

/-! ### C6: deep-merge is idempotent and override-wins -/

theorem lookup_setKey_self (b : List (String × PyVal)) (k : String) (v : PyVal) :
    lookupVal (setKey b k v) k = some v := by
  induction b with
  | nil => simp [setKey, lookupVal]
  | cons kw rest ih =>
    obtain ⟨k1, w⟩ := kw
    by_cases h : k1 = k <;> simp [setKey, lookupVal, h, ih]

theorem lookup_setKey_ne (b : List (String × PyVal)) (k : String) (v : PyVal)
    (key : String) (h : key ≠ k) :
    lookupVal (setKey b k v) key = lookupVal b key := by
  have hk : ¬ k = key := fun hh => h hh.symm
  induction b with
  | nil => simp [setKey, lookupVal, hk]
  | cons kw rest ih =>
    obtain ⟨k1, w⟩ := kw
    by_cases h1 : k1 = k
    · subst h1
      rw [setKey, if_pos rfl, lookupVal, lookupVal, if_neg hk, if_neg hk]
    · rw [setKey, if_neg h1, lookupVal, lookupVal]
      by_cases h2 : k1 = key
      · rw [if_pos h2, if_pos h2]
      · rw [if_neg h2, if_neg h2, ih]

theorem setKey_self (b : List (String × PyVal)) (k : String) (v : PyVal)
    (h : lookupVal b k = some v) : setKey b k v = b := by
  induction b with
  | nil => simp [lookupVal] at h
  | cons kw rest ih =>
    obtain ⟨k1, w⟩ := kw
    by_cases h1 : k1 = k
    · rw [lookupVal, if_pos h1] at h
      obtain rfl : w = v := by injection h
      simp [setKey, h1]
    · rw [lookupVal, if_neg h1] at h
      simp [setKey, h1, ih h]

theorem lookup_of_nodup (es : List (String × PyVal)) (h : nodup_keys es = true) :
    ∀ kv ∈ es, lookupVal es kv.1 = some kv.2 := by
  induction es with
  | nil => intro kv hm; simp at hm
  | cons kw rest ih =>
    obtain ⟨k1, w⟩ := kw
    rw [nodup_keys, Bool.and_eq_true] at h
    obtain ⟨hall, hrest⟩ := h
    intro kv hm
    rcases List.mem_cons.1 hm with rfl | hm2
    · simp [lookupVal]
    · have hne : kv.1 ≠ k1 := by
        have := List.all_eq_true.1 hall kv hm2
        simpa using this
      rw [lookupVal, if_neg (fun hh => hne hh.symm)]
      exact ih hrest kv hm2

theorem pyval_nodup_dict (es : List (String × PyVal)) :
    pyval_nodup (.dict es) = true ↔
      nodup_keys es = true ∧ ∀ kv ∈ es, pyval_nodup kv.2 = true := by
  rw [pyval_nodup]
  simp only [Bool.and_eq_true, List.all_eq_true]
  constructor
  · rintro ⟨h1, h2⟩
    exact ⟨h1, fun kv hm => h2 ⟨kv, hm⟩ (List.mem_attach _ _)⟩
  · rintro ⟨h1, h2⟩
    exact ⟨h1, fun kv _ => h2 kv.1 kv.2⟩

/-- Merging a dict whose entries all already look up to themselves in the
base (and are recursively duplicate-free) is a no-op; size-bounded for the
induction through nested dict values. -/
theorem deep_merge_self_bounded (n : ℕ) :
    ∀ ov : List (String × PyVal), sizeOf ov ≤ n →
      ∀ base, (∀ kv ∈ ov, lookupVal base kv.1 = some kv.2) →
        (∀ kv ∈ ov, pyval_nodup kv.2 = true) →
        deep_merge base ov = base := by
  induction n with
  | zero =>
    intro ov hsz
    exfalso
    cases ov <;> simp at hsz
  | succ n ih =>
    intro ov hsz base hlk hnd
    cases ov with
    | nil => rw [deep_merge]
    | cons kv rest =>
      obtain ⟨key, v⟩ := kv
      have hv : lookupVal base key = some v := hlk ⟨key, v⟩ (List.mem_cons_self _ _)
      have htail : deep_merge base rest = base := by
        apply ih rest (by simp at hsz ⊢; omega) base
        · exact fun kv hm => hlk kv (List.mem_cons_of_mem _ hm)
        · exact fun kv hm => hnd kv (List.mem_cons_of_mem _ hm)
      rw [deep_merge]
      by_cases hb : bothDicts (lookupVal base key) v = true
      · rw [dif_pos hb]
        have hbase : setKey base key
            (.dict (deep_merge (asDict ((lookupVal base key).getD .pynone)) (asDict v))) = base := by
          rw [hv] at hb ⊢
          unfold bothDicts at hb
          rw [Bool.and_eq_true] at hb
          cases v with
          | dict od =>
            have hnod := hnd ⟨key, .dict od⟩ (List.mem_cons_self _ _)
            rw [pyval_nodup_dict] at hnod
            have hmerge : deep_merge od od = od := by
              apply ih od (by simp at hsz ⊢; omega) od
              · exact lookup_of_nodup od hnod.1
              · exact hnod.2
            simp only [Option.getD, asDict, hmerge]
            exact setKey_self base key (.dict od) hv
          | str a => simp [isDict] at hb
          | num a => simp [isDict] at hb
          | boolean a => simp [isDict] at hb
          | pynone => simp [isDict] at hb
        rw [hbase, htail]
      · rw [dif_neg hb, setKey_self base key v hv, htail]

/-- Keys absent from the override are untouched by `_deep_merge`. -/
theorem lookup_deep_merge_not_mem (ov : List (String × PyVal)) :
    ∀ base key, (∀ kv ∈ ov, kv.1 ≠ key) →
      lookupVal (deep_merge base ov) key = lookupVal base key := by
  induction ov with
  | nil => intro base key _; rw [deep_merge]
  | cons kv rest ih =>
    obtain ⟨k1, v⟩ := kv
    intro base key h
    have hk1 : k1 ≠ key := h ⟨k1, v⟩ (List.mem_cons_self _ _)
    rw [deep_merge]
    rw [ih _ key (fun kv hm => h kv (List.mem_cons_of_mem _ hm))]
    split_ifs <;> exact lookup_setKey_ne _ _ _ _ (fun hh => hk1 hh.symm)

/-- What `_deep_merge` leaves at any single key: the override value wins,
with two dicts merged recursively; keys absent from the override keep the
base value. -/
theorem lookup_deep_merge (ov : List (String × PyVal)) :
    ∀ base key, nodup_keys ov = true →
      lookupVal (deep_merge base ov) key =
        (match lookupVal ov key, lookupVal base key with
          | some (.dict od), some (.dict bd) => some (.dict (deep_merge bd od))
          | some v, _ => some v
          | none, _ => lookupVal base key) := by
  induction ov with
  | nil => intro base key _; rw [deep_merge]; simp [lookupVal]
  | cons kv rest ih =>
    obtain ⟨k1, v⟩ := kv
    intro base key hnd
    rw [nodup_keys, Bool.and_eq_true] at hnd
    obtain ⟨hall, hrest⟩ := hnd
    rw [deep_merge]
    by_cases hk : k1 = key
    · subst hk
      have hnotin : ∀ kv ∈ rest, kv.1 ≠ k1 := by
        intro kv hm
        have := List.all_eq_true.1 hall kv hm
        simpa using this
      rw [lookup_deep_merge_not_mem rest _ k1 hnotin]
      rw [lookupVal, if_pos rfl]
      by_cases hb : bothDicts (lookupVal base k1) v = true
      · rw [dif_pos hb]
        rw [lookup_setKey_self]
        unfold bothDicts at hb
        cases hl : lookupVal base k1 with
        | none => rw [hl] at hb; simp at hb
        | some bv =>
          rw [hl] at hb
          rw [Bool.and_eq_true] at hb
          cases bv with
          | dict bd =>
            cases v with
            | dict od => simp [asDict, hl]
            | str a => simp [isDict] at hb
            | num a => simp [isDict] at hb
            | boolean a => simp [isDict] at hb
            | pynone => simp [isDict] at hb
          | str a => simp [isDict] at hb
          | num a => simp [isDict] at hb
          | boolean a => simp [isDict] at hb
          | pynone => simp [isDict] at hb
      · rw [dif_neg hb]
        rw [lookup_setKey_self]
        unfold bothDicts at hb
        cases hl : lookupVal base k1 with
        | none => cases v <;> simp
        | some bv =>
          rw [hl] at hb
          cases bv with
          | dict bd =>
            cases v with
            | dict od => simp [isDict] at hb
            | str a => simp
            | num a => simp
            | boolean a => simp
            | pynone => simp
          | str a => cases v <;> simp
          | num a => cases v <;> simp
          | boolean a => cases v <;> simp
          | pynone => cases v <;> simp
    · rw [ih _ key hrest]
      have hbase : ∀ w : PyVal,
          lookupVal (setKey base k1 w) key = lookupVal base key :=
        fun w => lookup_setKey_ne _ _ _ _ (fun hh => hk hh.symm)
      rw [lookupVal, if_neg hk]
      split_ifs <;> rw [hbase]

/-- C6: `ConfigManager._deep_merge` is override-wins and idempotent:
the worked example `{a: {b: 1, c: 2}}` merged with `{a: {b: 9}}` gives
`{a: {b: 9, c: 2}}`; at every key the override value wins, with nested
dicts merged recursively and non-dict leaves replaced; and merging any
(duplicate-free, as Python dicts are) domain with itself is a no-op. -/
theorem claim6_deep_merge :
    deep_merge [("a", .dict [("b", .num 1), ("c", .num 2)])]
        [("a", .dict [("b", .num 9)])] =
      [("a", .dict [("b", .num 9), ("c", .num 2)])] ∧
    (∀ d : List (String × PyVal), pyval_nodup (.dict d) = true → deep_merge d d = d) ∧
    (∀ base ov key, nodup_keys ov = true →
      lookupVal (deep_merge base ov) key =
        (match lookupVal ov key, lookupVal base key with
          | some (.dict od), some (.dict bd) => some (.dict (deep_merge bd od))
          | some v, _ => some v
          | none, _ => lookupVal base key)) := by
  refine ⟨?_, ?_, ?_⟩
  · simp [deep_merge, setKey, lookupVal, bothDicts, isDict, asDict]
  · intro d hd
    rw [pyval_nodup_dict] at hd
    exact deep_merge_self_bounded (sizeOf d) d le_rfl d
      (lookup_of_nodup d hd.1) hd.2
  · intro base ov key hnd
    exact lookup_deep_merge ov base key hnd

theorem claim6_witness :
    deep_merge [("x", .num 5), ("y", .dict [("z", .boolean true)])]
        [("x", .num 5), ("y", .dict [("z", .boolean true)])] =
      [("x", .num 5), ("y", .dict [("z", .boolean true)])] ∧
    lookupVal (deep_merge [("p", .num 1)] [("p", .num 2), ("q", .num 3)]) "p" = some (.num 2) := by
  constructor
  · exact claim6_deep_merge.2.1 [("x", .num 5), ("y", .dict [("z", .boolean true)])]
      (by simp [pyval_nodup, nodup_keys])
  · rw [claim6_deep_merge.2.2 [("p", .num 1)] [("p", .num 2), ("q", .num 3)] "p"
      (by simp [nodup_keys])]
    simp [lookupVal]

/-! ### String-helper lemmas used by the driver claims -/

theorem printable_of_digit {c : Char} (h : isDigitA c = true) : isPrintableA c = true := by
  simp [isDigitA] at h
  simp [isPrintableA]
  omega

theorem not_space_of_digit {c : Char} (h : isDigitA c = true) : isSpaceA c = false := by
  simp [isDigitA] at h
  simp [isSpaceA]
  omega

theorem toLowerA_digit {c : Char} (h : isDigitA c = true) : toLowerA c = c := by
  simp [isDigitA] at h
  rw [toLowerA, if_neg]
  omega

theorem digit_ne {c d : Char} (hc : isDigitA c = true) (hd : isDigitA d = false) : c ≠ d := by
  intro h
  subst h
  rw [hc] at hd
  cases hd

theorem dropWhile_eq_self_of_none {p : Char → Bool} {l : List Char}
    (h : ∀ c ∈ l, p c = false) : l.dropWhile p = l := by
  cases l with
  | nil => rfl
  | cons c cs => rw [List.dropWhile_cons, if_neg (by simp [h c (List.mem_cons_self c cs)])]

theorem stripC_eq_self {l : List Char} (h : ∀ c ∈ l, isSpaceA c = false) : stripC l = l := by
  unfold stripC
  rw [dropWhile_eq_self_of_none h,
    dropWhile_eq_self_of_none (fun c hc => h c (List.mem_reverse.1 hc)), List.reverse_reverse]

theorem printFilter_eq_self {l : List Char} (h : ∀ c ∈ l, isPrintableA c = true) :
    printFilter l = l := by
  rw [printFilter, List.filter_eq_self]
  exact h

theorem startsWithC_append (pat r : List Char) : startsWithC pat (pat ++ r) = true := by
  induction pat with
  | nil => rfl
  | cons p ps ih => simp [startsWithC, ih]

theorem containsSub_nil_pat (l : List Char) : containsSub [] l = true := by
  cases l <;> simp [containsSub, startsWithC]

theorem containsSub_append_left (pat r : List Char) : containsSub pat (pat ++ r) = true := by
  cases pat with
  | nil => exact containsSub_nil_pat r
  | cons p ps =>
    rw [List.cons_append, containsSub, startsWithC]
    simp [startsWithC_append]

theorem containsSub_cons_of {pat cs : List Char} (c : Char) (h : containsSub pat cs = true) :
    containsSub pat (c :: cs) = true := by
  rw [containsSub, h]
  simp

theorem containsSub_append_of (l : List Char) {pat r : List Char}
    (h : containsSub pat r = true) : containsSub pat (l ++ r) = true := by
  induction l with
  | nil => exact h
  | cons c cs ih => exact containsSub_cons_of c ih

theorem mem_of_startsWithC {pat : List Char} :
    ∀ {l : List Char}, startsWithC pat l = true → ∀ c ∈ pat, c ∈ l := by
  induction pat with
  | nil => intro l _ c hc; simp at hc
  | cons p ps ih =>
    intro l h c hc
    cases l with
    | nil => simp [startsWithC] at h
    | cons d ds =>
      rw [startsWithC, Bool.and_eq_true] at h
      obtain ⟨hpd, hrest⟩ := h
      have hpd2 : p = d := by simpa using hpd
      rcases List.mem_cons.1 hc with rfl | hc2
      · exact hpd2 ▸ List.mem_cons_self _ _
      · exact List.mem_cons_of_mem _ (ih hrest c hc2)

theorem mem_of_containsSub {pat : List Char} :
    ∀ {l : List Char}, containsSub pat l = true → ∀ c ∈ pat, c ∈ l := by
  intro l
  induction l with
  | nil =>
    intro h c hc
    cases pat with
    | nil => simp at hc
    | cons p ps => simp [containsSub, startsWithC] at h
  | cons d ds ih =>
    intro h c hc
    rw [containsSub, Bool.or_eq_true] at h
    rcases h with h1 | h2
    · exact mem_of_startsWithC h1 c hc
    · exact List.mem_cons_of_mem _ (ih h2 c hc)

theorem containsSub_eq_false {pat l : List Char} {c : Char} (hc : c ∈ pat) (hl : c ∉ l) :
    containsSub pat l = false := by
  cases hb : containsSub pat l with
  | false => rfl
  | true => exact absurd (mem_of_containsSub hb c hc) hl

theorem splitOnC_ne_nil (sep : Char) (l : List Char) : splitOnC sep l ≠ [] := by
  cases l with
  | nil => simp [splitOnC]
  | cons c cs =>
    rw [splitOnC]
    cases hs : splitOnC sep cs with
    | nil => simp
    | cons h t => split_ifs <;> simp

theorem splitOnC_no_sep {sep : Char} {l : List Char} (h : sep ∉ l) : splitOnC sep l = [l] := by
  induction l with
  | nil => rfl
  | cons c cs ih =>
    have hc : ¬ c = sep := fun hh => h (hh ▸ List.mem_cons_self c cs)
    have hcs : sep ∉ cs := fun hm => h (List.mem_cons_of_mem c hm)
    rw [splitOnC, ih hcs]
    simp [hc]

theorem splitOnC_append_sep (sep : Char) {xs : List Char} (ys : List Char) (hx : sep ∉ xs) :
    splitOnC sep (xs ++ sep :: ys) = xs :: splitOnC sep ys := by
  induction xs with
  | nil =>
    rw [List.nil_append, splitOnC]
    cases hs : splitOnC sep ys with
    | nil => exact absurd hs (splitOnC_ne_nil sep ys)
    | cons h t => simp
  | cons x xs ih =>
    have hxne : ¬ x = sep := fun hh => hx (hh ▸ List.mem_cons_self x xs)
    have hxs : sep ∉ xs := fun hm => hx (List.mem_cons_of_mem x hm)
    rw [List.cons_append, splitOnC, ih hxs]
    simp [hxne]

theorem removeKg_cons_ne (c : Char) (l : List Char) (h : ¬ c = 'k') :
    removeKg (c :: l) = c :: removeKg l := by
  cases l with
  | nil => rfl
  | cons c2 rest => rw [removeKg, if_neg (by simp [h])]

theorem removeKg_append {l : List Char} (h : 'k' ∉ l) : removeKg (l ++ ['k', 'g']) = l := by
  induction l with
  | nil => rfl
  | cons c cs ih =>
    have hc : ¬ c = 'k' := fun hh => h (hh ▸ List.mem_cons_self c cs)
    have hcs : 'k' ∉ cs := fun hm => h (List.mem_cons_of_mem c hm)
    rw [List.cons_append, removeKg_cons_ne c _ hc, ih hcs]

theorem dropWhile_append_all {p : Char → Bool} {pre : List Char} (rest : List Char)
    (h : ∀ c ∈ pre, p c = true) : (pre ++ rest).dropWhile p = rest.dropWhile p := by
  induction pre with
  | nil => rfl
  | cons c cs ih =>
    rw [List.cons_append, List.dropWhile_cons, if_pos (h c (List.mem_cons_self c cs))]
    exact ih (fun d hd => h d (List.mem_cons_of_mem c hd))

theorem takeWhile_digits_dot {ip : List Char} (fp : List Char)
    (hip : ∀ c ∈ ip, isDigitA c = true) :
    (ip ++ '.' :: fp).takeWhile (fun c => c ≠ '.') = ip := by
  induction ip with
  | nil => rw [List.nil_append, List.takeWhile_cons, if_neg (by simp)]
  | cons d ds ih =>
    have hd : isDigitA d = true := hip d (List.mem_cons_self d ds)
    rw [List.cons_append, List.takeWhile_cons,
      if_pos (by simp [digit_ne hd (by decide : isDigitA '.' = false)])]
    rw [ih (fun c hc => hip c (List.mem_cons_of_mem d hc))]

theorem dropWhile_digits_dot {ip : List Char} (fp : List Char)
    (hip : ∀ c ∈ ip, isDigitA c = true) :
    (ip ++ '.' :: fp).dropWhile (fun c => c ≠ '.') = '.' :: fp := by
  induction ip with
  | nil => rw [List.nil_append, List.dropWhile_cons, if_neg (by simp)]
  | cons d ds ih =>
    have hd : isDigitA d = true := hip d (List.mem_cons_self d ds)
    rw [List.cons_append, List.dropWhile_cons,
      if_pos (by simp [digit_ne hd (by decide : isDigitA '.' = false)])]
    exact ih (fun c hc => hip c (List.mem_cons_of_mem d hc))

theorem decValid_digits_dot {ip fp : List Char} (hip : ∀ c ∈ ip, isDigitA c = true)
    (hfp : ∀ c ∈ fp, isDigitA c = true) (hne : ip ≠ []) :
    decValid (ip ++ '.' :: fp) = true := by
  unfold decValid
  rw [Bool.and_eq_true, Bool.and_eq_true]
  refine ⟨⟨?_, ?_⟩, ?_⟩
  · rw [List.all_eq_true]
    intro c hc
    rcases List.mem_append.1 hc with hi | hdot
    · simp [hip c hi]
    · rcases List.mem_cons.1 hdot with rfl | hf
      · simp
      · simp [hfp c hf]
  · have h1 : List.count '.' ip = 0 :=
      List.count_eq_zero.2 (fun hm => absurd (hip '.' hm) (by decide))
    have h2 : List.count '.' fp = 0 :=
      List.count_eq_zero.2 (fun hm => absurd (hfp '.' hm) (by decide))
    simp [List.count_append, h1, h2]
  · obtain ⟨d, ds, rfl⟩ : ∃ d ds, ip = d :: ds := by
      cases ip with
      | nil => exact absurd rfl hne
      | cons d ds => exact ⟨d, ds, rfl⟩
    rw [List.cons_append, List.any_cons]
    simp [hip d (List.mem_cons_self d ds)]

theorem decBody_digits_dot {ip fp : List Char} (hip : ∀ c ∈ ip, isDigitA c = true) :
    decBody (ip ++ '.' :: fp) =
      (fromDigitsC ip : ℚ) + (fromDigitsC fp : ℚ) / (10 : ℚ) ^ fp.length := by
  unfold decBody
  rw [takeWhile_digits_dot fp hip, dropWhile_digits_dot fp hip]
  simp

/-! ### Driver read_weight lemmas -/

theorem parse_toledo_none {s : ScaleState} {r : List Char} (h : toledo_extract r = none) :
    parse_toledo_response s r = (s, none) := by
  simp [parse_toledo_response, h]

theorem parse_filizola_none {s : ScaleState} {r : List Char} (h : filizola_extract r = none) :
    parse_filizola_response s r = (s, none) := by
  simp [parse_filizola_response, h]

theorem toledo_extract_none_of_empty {r : List Char} (h : toledo_weight_str r = []) :
    toledo_extract r = none := by
  simp [toledo_extract, h]

theorem filizola_extract_none_of_empty {r : List Char} (h : filizola_numbers r = []) :
    filizola_extract r = none := by
  simp [filizola_extract, h]

/-- A parse failure inside `read_weight` ends with `set_error` (status
`ERROR`), and the `finally` block does not fire. -/
theorem read_weight_with_malformed (parse : ScaleState → List Char → ScaleState × Option ℚ)
    (st : ScaleState) (raw : List Char) (hc : is_connected st = true)
    (hp : parse { st with status := .busy } (stripC raw) = ({ st with status := .busy }, none)) :
    read_weight_with parse st (.line raw) =
      ({ st with status := .error, last_error := some "Resposta inválida da balança" }, none) := by
  unfold read_weight_with
  rw [if_neg (by simp [hc])]
  dsimp only
  by_cases hresp : stripC raw = []
  · simp [hresp, set_error, finallyBusy]
  · simp [hresp, hp, set_error, finallyBusy]

theorem read_weight_with_timeout (parse : ScaleState → List Char → ScaleState × Option ℚ)
    (st : ScaleState) (hc : is_connected st = true) :
    read_weight_with parse st .timeoutExc =
      ({ st with status := .error, last_error := some "Timeout na comunicação" }, none) := by
  unfold read_weight_with
  rw [if_neg (by simp [hc])]
  simp [set_error, finallyBusy]

theorem read_weight_with_exc (parse : ScaleState → List Char → ScaleState × Option ℚ)
    (st : ScaleState) (m : String) (hc : is_connected st = true) :
    read_weight_with parse st (.exc m) =
      ({ st with status := .error, last_error := some ("Erro na leitura: " ++ m) }, none) := by
  unfold read_weight_with
  rw [if_neg (by simp [hc])]
  simp [set_error, finallyBusy]

theorem read_weight_with_snd_none (parse : ScaleState → List Char → ScaleState × Option ℚ)
    (st : ScaleState) (raw : List Char)
    (hp : ∀ s, (parse s (stripC raw)).2 = none) :
    (read_weight_with parse st (.line raw)).2 = none := by
  unfold read_weight_with
  by_cases hc : is_connected st
  · rw [if_neg (by simp [hc])]
    dsimp only
    by_cases hresp : stripC raw = []
    · simp [hresp]
    · cases hps : parse { st with status := .busy } (stripC raw) with
      | mk s2 r =>
        have hr := hp { st with status := .busy }
        rw [hps] at hr
        simp at hr
        subst hr
        simp [hresp, hps]
  · rw [if_pos (by simp [hc])]

/-! ### C1: malformed responses -/

/-- C1 (amended): for every malformed scale response (empty string or
non-numeric payload — anything the vendor parser rejects) received while
the driver is connected and the transport delivered a line, `read_weight`
returns `none` and sets the non-empty last error
`"Resposta inválida da balança"`; the driver's status ends at `Error` —
the same terminal status as a transport failure — because `set_error`
sets `ERROR` and the `finally` block only clears `BUSY`.  The driver is
never left `Busy`.  If the transport itself failed (timeout or other
exception), status is likewise `Error` with the transport error recorded. -/
theorem claim1_malformed_response :
    (∀ st raw, is_connected st = true → toledo_extract (stripC raw) = none →
      toledo_read_weight st (.line raw) =
        ({ st with status := .error, last_error := some "Resposta inválida da balança" }, none)) ∧
    (∀ st raw, is_connected st = true → filizola_extract (stripC raw) = none →
      filizola_read_weight st (.line raw) =
        ({ st with status := .error, last_error := some "Resposta inválida da balança" }, none)) ∧
    ("Resposta inválida da balança" : String) ≠ "" ∧
    (∀ st, is_connected st = true →
      toledo_read_weight st .timeoutExc =
        ({ st with status := .error, last_error := some "Timeout na comunicação" }, none)) ∧
    (∀ st, is_connected st = true →
      filizola_read_weight st .timeoutExc =
        ({ st with status := .error, last_error := some "Timeout na comunicação" }, none)) ∧
    (∀ st m, is_connected st = true →
      toledo_read_weight st (.exc m) =
        ({ st with status := .error, last_error := some ("Erro na leitura: " ++ m) }, none)) ∧
    (∀ st m, is_connected st = true →
      filizola_read_weight st (.exc m) =
        ({ st with status := .error, last_error := some ("Erro na leitura: " ++ m) }, none)) := by
  refine ⟨?_, ?_, by decide, ?_, ?_, ?_, ?_⟩
  · intro st raw hc hext
    exact read_weight_with_malformed _ st raw hc (parse_toledo_none hext)
  · intro st raw hc hext
    exact read_weight_with_malformed _ st raw hc (parse_filizola_none hext)
  · intro st hc
    exact read_weight_with_timeout _ st hc
  · intro st hc
    exact read_weight_with_timeout _ st hc
  · intro st m hc
    exact read_weight_with_exc _ st m hc
  · intro st m hc
    exact read_weight_with_exc _ st m hc

theorem claim1_witness :
    toledo_read_weight ⟨.connected, none, true, none, false⟩ (.line ['x', 'y']) =
      (⟨.error, some "Resposta inválida da balança", true, none, false⟩, none) ∧
    filizola_read_weight ⟨.connected, none, true, none, false⟩ (.line ['@', '!']) =
      (⟨.error, some "Resposta inválida da balança", true, none, false⟩, none) :=
  ⟨claim1_malformed_response.1 ⟨.connected, none, true, none, false⟩ ['x', 'y'] rfl (by decide),
    claim1_malformed_response.2.1 ⟨.connected, none, true, none, false⟩ ['@', '!'] rfl (by decide)⟩

/-- C1 counterexample to the claim as stated: on the malformed (non-empty,
non-numeric) response `"xy"` delivered by a healthy transport to a
connected Toledo driver, `read_weight` returns `none` as claimed, but the
status does NOT return to `Connected`: `set_error` pins it at `Error`
(the `finally` block only restores `BUSY`). -/
theorem claim1_counterexample :
    (toledo_read_weight ⟨.connected, none, true, none, false⟩ (.line ['x', 'y'])).2 = none ∧
    (toledo_read_weight ⟨.connected, none, true, none, false⟩ (.line ['x', 'y'])).1.status ≠
      .connected ∧
    (toledo_read_weight ⟨.connected, none, true, none, false⟩ (.line ['x', 'y'])).1.status =
      .error := by
  refine ⟨?_, ?_, ?_⟩ <;> decide

/-! ### C8: empty numeric substring means a failed read, not zero -/

/-- C8: for every scale response whose extracted numeric substring is
empty, `read_weight` treats it as a failed read and returns `none` — in
particular it never returns a zero-weight reading for such a response. -/
theorem claim8_empty_numeric_substring (st : ScaleState) (raw : List Char) :
    (toledo_weight_str (stripC raw) = [] → (toledo_read_weight st (.line raw)).2 = none) ∧
    (filizola_numbers (stripC raw) = [] → (filizola_read_weight st (.line raw)).2 = none) := by
  constructor
  · intro h
    exact read_weight_with_snd_none _ st raw
      (fun s => by rw [parse_toledo_none (toledo_extract_none_of_empty h)])
  · intro h
    exact read_weight_with_snd_none _ st raw
      (fun s => by rw [parse_filizola_none (filizola_extract_none_of_empty h)])

theorem claim8_witness :
    (toledo_read_weight ⟨.connected, none, true, none, false⟩
      (.line ['n', 'o', 'k', 'g'])).2 = none ∧
    (filizola_read_weight ⟨.connected, none, true, none, false⟩
      (.line ['S', 'W', '+'])).2 = none :=
  ⟨(claim8_empty_numeric_substring ⟨.connected, none, true, none, false⟩
      ['n', 'o', 'k', 'g']).1 (by decide),
    (claim8_empty_numeric_substring ⟨.connected, none, true, none, false⟩
      ['S', 'W', '+']).2 (by decide)⟩

/-! ### C5: tare verification, zero trusts the ack -/

theorem tare_with_true (readW : ScaleState → TransportOutcome → ScaleState × Option ℚ)
    (st : ScaleState) (we : Option String) (t : TransportOutcome)
    (h : (tare_with readW st we t).2 = true) :
    ∃ w, (readW st t).2 = some w ∧ |w| < (0.010 : ℚ) := by
  unfold tare_with at h
  by_cases hc : is_connected st
  · rw [if_neg (by simp [hc])] at h
    cases we with
    | some m => simp at h
    | none =>
      cases hr : readW st t with
      | mk s2 r =>
        rw [hr] at h
        cases r with
        | none => simp at h
        | some w =>
          by_cases hw : |w| < (0.010 : ℚ)
          · exact ⟨w, rfl, hw⟩
          · simp [hw] at h
  · rw [if_pos (by simp [hc])] at h
    simp at h

/-- C5: `tare` reports success only when the post-tare verification
reading (the `read_weight` call issued immediately after the tare
command) is strictly within `0.010` of zero — it never returns `True`
while that reading is more than `0.010` from zero; and `zero` performs no
post-verification: when connected and the command write does not raise it
returns `True`, with the state untouched and no weight consulted. -/
theorem claim5_tare_verification :
    (∀ st we t, (toledo_tare st we t).2 = true →
      ∃ w, (toledo_read_weight st t).2 = some w ∧ |w| < (0.010 : ℚ)) ∧
    (∀ st we t, (filizola_tare st we t).2 = true →
      ∃ w, (filizola_read_weight st t).2 = some w ∧ |w| < (0.010 : ℚ)) ∧
    (∀ st, is_connected st = true → zero_with st none = (st, true)) := by
  refine ⟨?_, ?_, ?_⟩
  · intro st we t h
    exact tare_with_true toledo_read_weight st we t h
  · intro st we t h
    exact tare_with_true filizola_read_weight st we t h
  · intro st hc
    unfold zero_with
    rw [if_neg (by simp [hc])]

theorem claim5_witness :
    (∃ w, (toledo_read_weight ⟨.connected, none, true, none, false⟩
        (.line ("ST,GS,+00000.005kg".data))).2 = some w ∧ |w| < (0.010 : ℚ)) ∧
    zero_with ⟨.connected, none, true, none, false⟩ none =
      (⟨.connected, none, true, none, false⟩, true) :=
  ⟨claim5_tare_verification.1 ⟨.connected, none, true, none, false⟩ none
      (.line ("ST,GS,+00000.005kg".data)) (by with_unfolding_all rfl),
    claim5_tare_verification.2.2 ⟨.connected, none, true, none, false⟩ rfl⟩

/-! ### C2: valid vendor responses parse to their numeric value -/

/-- Positional value of integer digits `ip` and fraction digits `fp`. -/
def digits_value (ip fp : List Char) : ℚ :=
  (fromDigitsC ip : ℚ) + (fromDigitsC fp : ℚ) / (10 : ℚ) ^ fp.length

/-- The last comma field of the documented Toledo frame:
sign, integer digits, point, fraction digits, `kg`. -/
def toledo_numfield (neg : Bool) (ip fp : List Char) : List Char :=
  (if neg then '-' else '+') :: (ip ++ '.' :: (fp ++ ['k', 'g']))

/-- The documented Toledo response grammar `"ST,GS,+00000.000kg"`
(toledo.py line 178): status token `ST` (stable) or `US` (unstable), the
`GS` field, then the numeric field. -/
def render_toledo (stable neg : Bool) (ip fp : List Char) : List Char :=
  (if stable then ['S', 'T'] else ['U', 'S']) ++
    ',' :: ('G' :: 'S' :: ',' :: toledo_numfield neg ip fp)

/-- The Filizola response grammar (filizola.py lines 173–177): an optional
run of sign/stability marker characters from `'SW+-'`, then digits,
point, digits. -/
def render_filizola (pre ip fp : List Char) : List Char := pre ++ (ip ++ '.' :: fp)

theorem mem_render_toledo {c : Char} {stable neg : Bool} {ip fp : List Char}
    (hc : c ∈ render_toledo stable neg ip fp) :
    c = 'S' ∨ c = 'T' ∨ c = 'U' ∨ c = ',' ∨ c = 'G' ∨ c = '+' ∨ c = '-' ∨
      c = '.' ∨ c = 'k' ∨ c = 'g' ∨ c ∈ ip ∨ c ∈ fp := by
  cases stable <;> cases neg <;>
    simp [render_toledo, toledo_numfield, List.mem_append, List.mem_cons] at hc <;> tauto

theorem mem_render_toledo_unstable {c : Char} {neg : Bool} {ip fp : List Char}
    (hc : c ∈ render_toledo false neg ip fp) :
    c = 'U' ∨ c = 'S' ∨ c = ',' ∨ c = 'G' ∨ c = '+' ∨ c = '-' ∨
      c = '.' ∨ c = 'k' ∨ c = 'g' ∨ c ∈ ip ∨ c ∈ fp := by
  cases neg <;>
    simp [render_toledo, toledo_numfield, List.mem_append, List.mem_cons] at hc <;> tauto

theorem render_toledo_printable {stable neg : Bool} {ip fp : List Char}
    (hip : ∀ c ∈ ip, isDigitA c = true) (hfp : ∀ c ∈ fp, isDigitA c = true) :
    ∀ c ∈ render_toledo stable neg ip fp, isPrintableA c = true := by
  intro c hc
  rcases mem_render_toledo hc with rfl | rfl | rfl | rfl | rfl | rfl | rfl | rfl | rfl | rfl | hm | hm
  case _ => decide
  case _ => decide
  case _ => decide
  case _ => decide
  case _ => decide
  case _ => decide
  case _ => decide
  case _ => decide
  case _ => decide
  case _ => decide
  · exact printable_of_digit (hip c hm)
  · exact printable_of_digit (hfp c hm)

theorem render_toledo_no_space {stable neg : Bool} {ip fp : List Char}
    (hip : ∀ c ∈ ip, isDigitA c = true) (hfp : ∀ c ∈ fp, isDigitA c = true) :
    ∀ c ∈ render_toledo stable neg ip fp, isSpaceA c = false := by
  intro c hc
  rcases mem_render_toledo hc with rfl | rfl | rfl | rfl | rfl | rfl | rfl | rfl | rfl | rfl | hm | hm
  case _ => decide
  case _ => decide
  case _ => decide
  case _ => decide
  case _ => decide
  case _ => decide
  case _ => decide
  case _ => decide
  case _ => decide
  case _ => decide
  · exact not_space_of_digit (hip c hm)
  · exact not_space_of_digit (hfp c hm)

theorem mem_toledo_numfield {c : Char} {neg : Bool} {ip fp : List Char}
    (hc : c ∈ toledo_numfield neg ip fp) :
    c = '+' ∨ c = '-' ∨ c = '.' ∨ c = 'k' ∨ c = 'g' ∨ c ∈ ip ∨ c ∈ fp := by
  cases neg <;> simp [toledo_numfield, List.mem_append, List.mem_cons] at hc <;> tauto

theorem comma_not_mem_toledo_numfield {neg : Bool} {ip fp : List Char}
    (hip : ∀ c ∈ ip, isDigitA c = true) (hfp : ∀ c ∈ fp, isDigitA c = true) :
    ',' ∉ toledo_numfield neg ip fp := by
  intro hm
  rcases mem_toledo_numfield hm with h | h | h | h | h | h | h
  case _ => exact absurd h (by decide)
  case _ => exact absurd h (by decide)
  case _ => exact absurd h (by decide)
  case _ => exact absurd h (by decide)
  case _ => exact absurd h (by decide)
  · exact absurd (hip ',' h) (by decide)
  · exact absurd (hfp ',' h) (by decide)

theorem toledo_clean_render {stable neg : Bool} {ip fp : List Char}
    (hip : ∀ c ∈ ip, isDigitA c = true) (hfp : ∀ c ∈ fp, isDigitA c = true) :
    toledo_clean (render_toledo stable neg ip fp) = render_toledo stable neg ip fp :=
  printFilter_eq_self (render_toledo_printable hip hfp)

theorem lastD_split_render_toledo {stable neg : Bool} {ip fp : List Char}
    (hip : ∀ c ∈ ip, isDigitA c = true) (hfp : ∀ c ∈ fp, isDigitA c = true) :
    lastD (splitOnC ',' (render_toledo stable neg ip fp)) = toledo_numfield neg ip fp := by
  have h1 : ',' ∉ (if stable then ['S', 'T'] else ['U', 'S'] : List Char) := by
    cases stable <;> decide
  have h2 : ',' ∉ (['G', 'S'] : List Char) := by decide
  have h3 : ',' ∉ toledo_numfield neg ip fp := comma_not_mem_toledo_numfield hip hfp
  have hshape : 'G' :: 'S' :: ',' :: toledo_numfield neg ip fp =
      ['G', 'S'] ++ ',' :: toledo_numfield neg ip fp := rfl
  rw [render_toledo, hshape, splitOnC_append_sep ',' _ h1, splitOnC_append_sep ',' _ h2,
    splitOnC_no_sep h3]
  simp [lastD, List.getLastD_cons]

theorem toledo_numfield_shape (neg : Bool) (ip fp : List Char) :
    toledo_numfield neg ip fp =
      ((if neg then '-' else '+') :: (ip ++ '.' :: fp)) ++ ['k', 'g'] := by
  simp [toledo_numfield]

theorem k_not_mem_sign_digits {neg : Bool} {ip fp : List Char}
    (hip : ∀ c ∈ ip, isDigitA c = true) (hfp : ∀ c ∈ fp, isDigitA c = true) :
    'k' ∉ (if neg then '-' else '+') :: (ip ++ '.' :: fp) := by
  intro hm
  rw [List.mem_cons, List.mem_append, List.mem_cons] at hm
  rcases hm with h | h | h | h
  · cases neg <;> exact absurd h (by decide)
  · exact absurd (hip 'k' h) (by decide)
  · exact absurd h (by decide)
  · exact absurd (hfp 'k' h) (by decide)

theorem filter_toledoKeep_sign_digits {neg : Bool} {ip fp : List Char}
    (hip : ∀ c ∈ ip, isDigitA c = true) (hfp : ∀ c ∈ fp, isDigitA c = true) :
    ((if neg then '-' else '+') :: (ip ++ '.' :: fp)).filter toledoKeep =
      (if neg then '-' else '+') :: (ip ++ '.' :: fp) := by
  rw [List.filter_eq_self]
  intro c hc
  rw [List.mem_cons, List.mem_append, List.mem_cons] at hc
  rcases hc with rfl | h | rfl | h
  · cases neg <;> decide
  · simp [toledoKeep, hip c h]
  · decide
  · simp [toledoKeep, hfp c h]

theorem toledo_weight_str_render {stable neg : Bool} {ip fp : List Char}
    (hip : ∀ c ∈ ip, isDigitA c = true) (hfp : ∀ c ∈ fp, isDigitA c = true) :
    toledo_weight_str (render_toledo stable neg ip fp) =
      (if neg then '-' else '+') :: (ip ++ '.' :: fp) := by
  unfold toledo_weight_str
  rw [toledo_clean_render hip hfp, lastD_split_render_toledo hip hfp,
    toledo_numfield_shape, removeKg_append (k_not_mem_sign_digits hip hfp),
    filter_toledoKeep_sign_digits hip hfp]

theorem decimalOfChars_plus {ip fp : List Char}
    (hip : ∀ c ∈ ip, isDigitA c = true) (hfp : ∀ c ∈ fp, isDigitA c = true) (hne : ip ≠ []) :
    decimalOfChars ('+' :: (ip ++ '.' :: fp)) = some (digits_value ip fp) := by
  have hv := decValid_digits_dot hip hfp hne
  have hb := @decBody_digits_dot ip fp hip
  simp [decimalOfChars, hv, hb, digits_value]

theorem decimalOfChars_minus {ip fp : List Char}
    (hip : ∀ c ∈ ip, isDigitA c = true) (hfp : ∀ c ∈ fp, isDigitA c = true) (hne : ip ≠ []) :
    decimalOfChars ('-' :: (ip ++ '.' :: fp)) = some (-digits_value ip fp) := by
  have hv := decValid_digits_dot hip hfp hne
  have hb := @decBody_digits_dot ip fp hip
  simp [decimalOfChars, hv, hb, digits_value]

theorem render_toledo_ends_kg (stable neg : Bool) (ip fp : List Char) :
    render_toledo stable neg ip fp =
      ((if stable then ['S', 'T'] else ['U', 'S']) ++
        ',' :: 'G' :: 'S' :: ',' :: ((if neg then '-' else '+') :: (ip ++ '.' :: fp))) ++
      ['k', 'g'] := by
  simp [render_toledo, toledo_numfield]

theorem containsSub_kg_render_toledo (stable neg : Bool) (ip fp : List Char) :
    containsSub ['k', 'g'] (render_toledo stable neg ip fp) = true := by
  rw [render_toledo_ends_kg]
  apply containsSub_append_of
  have := containsSub_append_left ['k', 'g'] []
  simpa using this

theorem toledo_extract_render {stable neg : Bool} {ip fp : List Char}
    (hip : ∀ c ∈ ip, isDigitA c = true) (hfp : ∀ c ∈ fp, isDigitA c = true) (hne : ip ≠ []) :
    toledo_extract (render_toledo stable neg ip fp) =
      some ((if neg then (-1 : ℚ) else 1) * digits_value ip fp) := by
  have hws := @toledo_weight_str_render stable neg ip fp hip hfp
  simp only [toledo_extract, toledo_clean_render hip hfp,
    containsSub_kg_render_toledo, if_true, hws]
  cases neg with
  | false =>
    rw [if_pos (by simp)]
    norm_num
    rw [decimalOfChars_plus hip hfp hne]
  | true =>
    rw [if_pos (by simp)]
    norm_num
    rw [decimalOfChars_minus hip hfp hne]

theorem toledo_stable_render {stable neg : Bool} {ip fp : List Char}
    (hip : ∀ c ∈ ip, isDigitA c = true) (hfp : ∀ c ∈ fp, isDigitA c = true) :
    toledo_stable (render_toledo stable neg ip fp) = stable := by
  cases stable with
  | true =>
    have h : containsSub ['S', 'T'] (render_toledo true neg ip fp) = true := by
      have := containsSub_append_left ['S', 'T']
        (',' :: ('G' :: 'S' :: ',' :: toledo_numfield neg ip fp))
      simpa [render_toledo] using this
    simp [toledo_stable, h]
  | false =>
    have hT : 'T' ∉ render_toledo false neg ip fp := by
      intro hm
      rcases mem_render_toledo_unstable hm with h | h | h | h | h | h | h | h | h | h | h
      case _ => exact absurd h (by decide)
      case _ => exact absurd h (by decide)
      case _ => exact absurd h (by decide)
      case _ => exact absurd h (by decide)
      case _ => exact absurd h (by decide)
      case _ => exact absurd h (by decide)
      case _ => exact absurd h (by decide)
      case _ => exact absurd h (by decide)
      case _ => exact absurd h (by decide)
      · exact absurd (hip 'T' h) (by decide)
      · exact absurd (hfp 'T' h) (by decide)
    have h1 : containsSub ['S', 'T'] (render_toledo false neg ip fp) = false :=
      containsSub_eq_false (by decide) hT
    have hb : 'b' ∉ lowerC (render_toledo false neg ip fp) := by
      intro hm
      rw [lowerC, List.mem_map] at hm
      obtain ⟨c, hcm, hlow⟩ := hm
      rcases mem_render_toledo_unstable hcm with rfl | rfl | rfl | rfl | rfl | rfl | rfl | rfl | rfl | h | h
      case _ => exact absurd hlow (by decide)
      case _ => exact absurd hlow (by decide)
      case _ => exact absurd hlow (by decide)
      case _ => exact absurd hlow (by decide)
      case _ => exact absurd hlow (by decide)
      case _ => exact absurd hlow (by decide)
      case _ => exact absurd hlow (by decide)
      case _ => exact absurd hlow (by decide)
      case _ => exact absurd hlow (by decide)
      · rw [toLowerA_digit (hip c h)] at hlow
        subst hlow
        exact absurd (hip 'b' h) (by decide)
      · rw [toLowerA_digit (hfp c h)] at hlow
        subst hlow
        exact absurd (hfp 'b' h) (by decide)
    have h2 : containsSub ['s', 't', 'a', 'b', 'l', 'e']
        (lowerC (render_toledo false neg ip fp)) = false :=
      containsSub_eq_false (by decide) hb
    simp [toledo_stable, h1, h2]

theorem mem_render_filizola {c : Char} {pre ip fp : List Char}
    (hc : c ∈ render_filizola pre ip fp) :
    c ∈ pre ∨ c ∈ ip ∨ c = '.' ∨ c ∈ fp := by
  simp [render_filizola, List.mem_append, List.mem_cons] at hc
  tauto

theorem lstrip_mem {c : Char} (h : filizolaLstripSet c = true) :
    c = 'S' ∨ c = 'W' ∨ c = '+' ∨ c = '-' := by
  simp [filizolaLstripSet] at h
  tauto

theorem not_lstripSet_of_digit {c : Char} (h : isDigitA c = true) :
    filizolaLstripSet c = false := by
  cases hb : filizolaLstripSet c with
  | false => rfl
  | true =>
    rcases lstrip_mem hb with rfl | rfl | rfl | rfl <;> exact absurd h (by decide)

theorem render_filizola_printable {pre ip fp : List Char}
    (hpre : ∀ c ∈ pre, filizolaLstripSet c = true)
    (hip : ∀ c ∈ ip, isDigitA c = true) (hfp : ∀ c ∈ fp, isDigitA c = true) :
    ∀ c ∈ render_filizola pre ip fp, isPrintableA c = true := by
  intro c hc
  rcases mem_render_filizola hc with h | h | rfl | h
  · rcases lstrip_mem (hpre c h) with rfl | rfl | rfl | rfl <;> decide
  · exact printable_of_digit (hip c h)
  · decide
  · exact printable_of_digit (hfp c h)

theorem render_filizola_no_space {pre ip fp : List Char}
    (hpre : ∀ c ∈ pre, filizolaLstripSet c = true)
    (hip : ∀ c ∈ ip, isDigitA c = true) (hfp : ∀ c ∈ fp, isDigitA c = true) :
    ∀ c ∈ render_filizola pre ip fp, isSpaceA c = false := by
  intro c hc
  rcases mem_render_filizola hc with h | h | rfl | h
  · rcases lstrip_mem (hpre c h) with rfl | rfl | rfl | rfl <;> decide
  · exact not_space_of_digit (hip c h)
  · decide
  · exact not_space_of_digit (hfp c h)

theorem filizola_numbers_render {pre ip fp : List Char}
    (hpre : ∀ c ∈ pre, filizolaLstripSet c = true)
    (hip : ∀ c ∈ ip, isDigitA c = true) (hfp : ∀ c ∈ fp, isDigitA c = true)
    (hne : ip ≠ []) :
    filizola_numbers (render_filizola pre ip fp) = ip ++ '.' :: fp := by
  obtain ⟨d, ds, rfl⟩ : ∃ d ds, ip = d :: ds := by
    cases ip with
    | nil => exact absurd rfl hne
    | cons d ds => exact ⟨d, ds, rfl⟩
  have hd := hip d (List.mem_cons_self d ds)
  unfold filizola_numbers
  rw [show filizola_clean (render_filizola pre (d :: ds) fp) = render_filizola pre (d :: ds) fp
      from printFilter_eq_self (render_filizola_printable hpre hip hfp)]
  rw [render_filizola, lstripSet, dropWhile_append_all _ hpre, List.cons_append,
    List.dropWhile_cons, if_neg (by simp [not_lstripSet_of_digit hd])]
  rw [List.filter_eq_self]
  intro c hc
  rw [List.mem_cons, List.mem_append, List.mem_cons] at hc
  rcases hc with rfl | h | rfl | h
  · simp [filizolaKeep, hd]
  · simp [filizolaKeep, hip c (List.mem_cons_of_mem d h)]
  · decide
  · simp [filizolaKeep, hfp c h]

theorem decimalOfChars_unsigned {ip fp : List Char}
    (hip : ∀ c ∈ ip, isDigitA c = true) (hfp : ∀ c ∈ fp, isDigitA c = true)
    (hne : ip ≠ []) :
    decimalOfChars (ip ++ '.' :: fp) = some (digits_value ip fp) := by
  obtain ⟨d, ds, rfl⟩ : ∃ d ds, ip = d :: ds := by
    cases ip with
    | nil => exact absurd rfl hne
    | cons d ds => exact ⟨d, ds, rfl⟩
  have hd := hip d (List.mem_cons_self d ds)
  have hplus : d ≠ '+' := digit_ne hd (by decide)
  have hminus : d ≠ '-' := digit_ne hd (by decide)
  have hv := decValid_digits_dot hip hfp (List.cons_ne_nil d ds)
  have hb := @decBody_digits_dot (d :: ds) fp hip
  simp only [List.cons_append] at hv hb ⊢
  simp [decimalOfChars, hplus, hminus, hv, hb, digits_value]

theorem filizola_extract_render {pre ip fp : List Char}
    (hpre : ∀ c ∈ pre, filizolaLstripSet c = true)
    (hip : ∀ c ∈ ip, isDigitA c = true) (hfp : ∀ c ∈ fp, isDigitA c = true)
    (hne : ip ≠ []) :
    filizola_extract (render_filizola pre ip fp) = some (digits_value ip fp) := by
  unfold filizola_extract
  rw [filizola_numbers_render hpre hip hfp hne]
  rw [if_pos (by simp [hne])]
  exact decimalOfChars_unsigned hip hfp hne

theorem filizola_stable_render {pre ip fp : List Char}
    (hpre : ∀ c ∈ pre, filizolaLstripSet c = true)
    (hip : ∀ c ∈ ip, isDigitA c = true) (hfp : ∀ c ∈ fp, isDigitA c = true)
    (hne : ip ≠ []) :
    filizola_stable (render_filizola pre ip fp) = decide (pre.head? = some 'S') := by
  unfold filizola_stable
  have hb : 'b' ∉ lowerC (render_filizola pre ip fp) := by
    intro hm
    rw [lowerC, List.mem_map] at hm
    obtain ⟨c, hcm, hlow⟩ := hm
    rcases mem_render_filizola hcm with h | h | rfl | h
    · rcases lstrip_mem (hpre c h) with rfl | rfl | rfl | rfl <;> exact absurd hlow (by decide)
    · rw [toLowerA_digit (hip c h)] at hlow
      subst hlow
      exact absurd (hip 'b' h) (by decide)
    · exact absurd hlow (by decide)
    · rw [toLowerA_digit (hfp c h)] at hlow
      subst hlow
      exact absurd (hfp 'b' h) (by decide)
  have h2 : containsSub ['s', 't', 'a', 'b', 'l', 'e']
      (lowerC (render_filizola pre ip fp)) = false :=
    containsSub_eq_false (by decide) hb
  rw [h2, Bool.or_false]
  cases pre with
  | nil =>
    obtain ⟨d, ds, rfl⟩ : ∃ d ds, ip = d :: ds := by
      cases ip with
      | nil => exact absurd rfl hne
      | cons d ds => exact ⟨d, ds, rfl⟩
    have hd := hip d (List.mem_cons_self d ds)
    have hSd : ¬ ('S' = d) := by
      intro h
      rw [← h] at hd
      exact absurd hd (by decide)
    simp [render_filizola, startsWithC, hSd]
  | cons q qs =>
    by_cases hq : q = 'S'
    · subst hq
      simp [render_filizola, startsWithC]
    · have h1 : ¬ ('S' = q) := fun h => hq h.symm
      simp [render_filizola, startsWithC, h1, hq]

theorem parse_toledo_render (s : ScaleState) {stable neg : Bool} {ip fp : List Char}
    (hip : ∀ c ∈ ip, isDigitA c = true) (hfp : ∀ c ∈ fp, isDigitA c = true)
    (hne : ip ≠ []) :
    parse_toledo_response s (render_toledo stable neg ip fp) =
      ({ s with is_stable := stable },
        some ((if neg then (-1 : ℚ) else 1) * digits_value ip fp)) := by
  simp [parse_toledo_response, toledo_extract_render hip hfp hne,
    toledo_clean_render hip hfp, toledo_stable_render hip hfp]

theorem parse_filizola_render (s : ScaleState) {pre ip fp : List Char}
    (hpre : ∀ c ∈ pre, filizolaLstripSet c = true)
    (hip : ∀ c ∈ ip, isDigitA c = true) (hfp : ∀ c ∈ fp, isDigitA c = true)
    (hne : ip ≠ []) :
    parse_filizola_response s (render_filizola pre ip fp) =
      ({ s with is_stable := decide (pre.head? = some 'S') },
        some (digits_value ip fp)) := by
  have hclean : filizola_clean (render_filizola pre ip fp) = render_filizola pre ip fp :=
    printFilter_eq_self (render_filizola_printable hpre hip hfp)
  simp [parse_filizola_response, filizola_extract_render hpre hip hfp hne,
    hclean, filizola_stable_render hpre hip hfp hne]

theorem read_weight_with_ok (parse : ScaleState → List Char → ScaleState × Option ℚ)
    (st : ScaleState) (raw : List Char) (s2 : ScaleState) (w : ℚ)
    (hc : is_connected st = true) (hstrip : stripC raw = raw) (hne : raw ≠ [])
    (hp : parse { st with status := .busy } raw = (s2, some w)) :
    read_weight_with parse st (.line raw) =
      ({ s2 with last_weight := some w, status := .connected }, some w) := by
  unfold read_weight_with
  rw [if_neg (by simp [hc])]
  dsimp only
  rw [hstrip]
  simp [hne, hp, finallyBusy]

/-- C2: for every response in the vendor grammar, `read_weight` returns
the decimal value of the numeric substring, classifying sign and
stability per vendor grammar: Toledo keeps the sign and is stable iff the
frame starts with the `ST` token; Filizola strips the sign/stability
marker prefix (`'SW+-'`), yielding the unsigned digit value, and is
stable iff the frame starts with `'S'`.  In particular
`"ST,GS,+00012.345kg"` yields weight `12.345` with `stable = true`. -/
theorem claim2_valid_response :
    (∀ st stable neg ip fp, is_connected st = true →
      (∀ c ∈ ip, isDigitA c = true) → (∀ c ∈ fp, isDigitA c = true) → ip ≠ [] →
      toledo_read_weight st (.line (render_toledo stable neg ip fp)) =
        ({ st with
            status := .connected
            last_weight := some ((if neg then (-1 : ℚ) else 1) * digits_value ip fp)
            is_stable := stable },
          some ((if neg then (-1 : ℚ) else 1) * digits_value ip fp))) ∧
    (∀ st pre ip fp, is_connected st = true →
      (∀ c ∈ pre, filizolaLstripSet c = true) →
      (∀ c ∈ ip, isDigitA c = true) → (∀ c ∈ fp, isDigitA c = true) → ip ≠ [] →
      filizola_read_weight st (.line (render_filizola pre ip fp)) =
        ({ st with
            status := .connected
            last_weight := some (digits_value ip fp)
            is_stable := decide (pre.head? = some 'S') },
          some (digits_value ip fp))) ∧
    toledo_read_weight ⟨.connected, none, true, none, false⟩
        (.line ("ST,GS,+00012.345kg".data)) =
      (⟨.connected, none, true, some (12.345 : ℚ), true⟩, some (12.345 : ℚ)) := by
  refine ⟨?_, ?_, ?_⟩
  · intro st stable neg ip fp hc hip hfp hne
    have hren : render_toledo stable neg ip fp ≠ [] := by
      cases stable <;> simp [render_toledo]
    exact read_weight_with_ok parse_toledo_response st _ _ _ hc
      (stripC_eq_self (render_toledo_no_space hip hfp)) hren
      (parse_toledo_render _ hip hfp hne)
  · intro st pre ip fp hc hpre hip hfp hne
    have hren : render_filizola pre ip fp ≠ [] := by
      simp [render_filizola]
    exact read_weight_with_ok parse_filizola_response st _ _ _ hc
      (stripC_eq_self (render_filizola_no_space hpre hip hfp)) hren
      (parse_filizola_render _ hpre hip hfp hne)
  · with_unfolding_all rfl

theorem claim2_witness :
    toledo_read_weight ⟨.connected, none, true, none, false⟩
        (.line (render_toledo true false ['0', '0', '0', '1', '2'] ['3', '4', '5'])) =
      (⟨.connected, none, true,
          some ((1 : ℚ) * digits_value ['0', '0', '0', '1', '2'] ['3', '4', '5']), true⟩,
        some ((1 : ℚ) * digits_value ['0', '0', '0', '1', '2'] ['3', '4', '5'])) ∧
    filizola_read_weight ⟨.connected, none, true, none, false⟩
        (.line (render_filizola ['S'] ['1', '2'] ['0', '5'])) =
      (⟨.connected, none, true, some (digits_value ['1', '2'] ['0', '5']), true⟩,
        some (digits_value ['1', '2'] ['0', '5'])) :=
  ⟨claim2_valid_response.1 ⟨.connected, none, true, none, false⟩ true false
      ['0', '0', '0', '1', '2'] ['3', '4', '5'] rfl (by decide) (by decide) (by decide),
    claim2_valid_response.2.1 ⟨.connected, none, true, none, false⟩ ['S'] ['1', '2'] ['0', '5']
      rfl (by decide) (by decide) (by decide) (by decide)⟩

end PDV
